import Mathlib

/-!
Verification of the SenseStudio project-configuration engine
(tools/sense_studio/sense_studio.py).

The development shallowly embeds the route handlers of sense_studio.py that
mutate project state:

* the project config is a record whose classes field is an association list
  from class name to the list of tag indices (a Python dict preserving
  insertion order, with unique keys);
* the projects overview (registry) is an association list from project name
  to project path;
* the on-disk directory layout is a set of directory paths (each a list of
  path segments), with existence checks, listing, creation and renaming;
* Python exceptions KeyError (missing dict key) and ValueError
  (list.remove on an absent element) are modelled as values of an error
  type; a handler that raises never reaches its subsequent writes.

String manipulation used by the flip-videos pipeline (split, replace,
endswith, membership of a substring) is embedded over List Char with
executable structural recursion, mirroring the Python semantics
(non-overlapping left-to-right scans).
-/

/-- Characters of a string literal; names of videos and files are modelled
as lists of characters. -/
def chars (s : String) : List Char := s.data

/-- Python exceptions raised by the handlers: KeyError from a missing dict
key, ValueError from list.remove on an absent element.  The spec's NotFound
failure corresponds to these. -/
inductive Err where
  | keyError
  | valueError
deriving DecidableEq, Repr

/-- Lookup in an association list: the value at the first matching key.
Models Python dict indexing d[k] (keys are unique in a dict). -/
def alistLookup {κ α : Type} [BEq κ] : List (κ × α) → κ → Option α
  | [], _ => none
  | (k, v) :: r, k0 => if k == k0 then some v else alistLookup r k0

/-- Update in an association list: Python d[k] = v.  If the key is present
its value is replaced in place (position kept); otherwise the pair is
appended at the end, as dict insertion order does. -/
def alistSet {κ α : Type} [BEq κ] : List (κ × α) → κ → α → List (κ × α)
  | [], k0, v0 => [(k0, v0)]
  | (k, v) :: r, k0, v0 =>
    if k == k0 then (k, v0) :: r else (k, v) :: alistSet r k0 v0

/-- Deletion from an association list: Python del d[k] (on a dict the key is
unique, so removing every match removes exactly that entry). -/
def alistDel {κ α : Type} [BEq κ] (l : List (κ × α)) (k0 : κ) : List (κ × α) :=
  l.filter (fun p => !(p.1 == k0))

/-- The project config as the handlers see it: the classes mapping (class
name to its list of tag indices) plus the remaining fields of the document
(name, tags, settings, ...), carried verbatim through every read-modify-write
cycle. -/
structure Config where
  classes : List (String × List Nat)
  rest : String
deriving DecidableEq, Repr

/-- The projects overview table: project name to project path. -/
abbrev Registry := List (String × String)

instance {ε α : Type} [DecidableEq ε] [DecidableEq α] : DecidableEq (Except ε α) :=
  fun a b =>
    match a, b with
    | .ok x, .ok y =>
      if h : x = y then .isTrue (by rw [h]) else .isFalse (fun hc => h (by cases hc; rfl))
    | .ok _, .error _ => .isFalse (fun hc => by cases hc)
    | .error _, .ok _ => .isFalse (fun hc => by cases hc)
    | .error x, .error y =>
      if h : x = y then .isTrue (by rw [h]) else .isFalse (fun hc => h (by cases hc; rfl))

/-- remove_project (sense_studio.py lines 84-96): loads the overview table
and executes del projects[name] before persisting.  A Python del on an
absent key raises KeyError, so the handler fails there and the write is
never reached. -/
def remove_project (projects : Registry) (name : String) : Except Err Registry :=
  match alistLookup projects name with
  | none => .error .keyError
  | some _ => .ok (alistDel projects name)

/-- Ascending sort used to model Python list.sort() on tag indices.  On
lists of naturals any correct ascending sort produces the same list (the
sorted list is determined by the multiset), so insertion sort is a faithful
model. -/
def sortNat (l : List Nat) : List Nat := List.insertionSort (· ≤ ·) l

/-- assign_tag_to_class (sense_studio.py lines 327-343): reads the class's
tag list (KeyError if the class is absent), unconditionally appends the
index, sorts ascending, and persists.  There is no membership check before
the append. -/
def assign_tag_to_class (cfg : Config) (class_name : String) (tag_index : Nat) :
    Except Err Config :=
  match alistLookup cfg.classes class_name with
  | none => .error .keyError
  | some class_tags =>
    .ok { cfg with classes := alistSet cfg.classes class_name (sortNat (class_tags ++ [tag_index])) }

/-- remove_tag_from_class (sense_studio.py lines 346-360): reads the class's
tag list (KeyError if the class is absent) and executes list.remove on it,
which drops the first occurrence of the value and raises ValueError when the
value is absent; then persists. -/
def remove_tag_from_class (cfg : Config) (class_name : String) (tag_index : Nat) :
    Except Err Config :=
  match alistLookup cfg.classes class_name with
  | none => .error .keyError
  | some class_tags =>
    if class_tags.contains tag_index then
      .ok { cfg with classes := alistSet cfg.classes class_name (class_tags.erase tag_index) }
    else .error .valueError

/-- remove_class (sense_studio.py lines 310-324): deletes the class entry
from the config (KeyError if absent) and persists.  The handler performs no
directory operation; the directory state it is given is returned untouched. -/
def remove_class {σ : Type} (cfg : Config) (fs : σ) (class_name : String) :
    Except Err (Config × σ) :=
  match alistLookup cfg.classes class_name with
  | none => .error .keyError
  | some _ => .ok ({ cfg with classes := alistDel cfg.classes class_name }, fs)

/-- A directory path, as the list of its segments from the filesystem root. -/
abbrev FsPath := List String

/-- The directory layout: the set of directories that currently exist,
as a list of paths.  Regular files are not part of this model; the
flip-videos pipeline below models its files separately. -/
structure FS where
  dirs : List FsPath
deriving DecidableEq, Repr

/-- os.path.exists for a directory path. -/
def fsHas (fs : FS) (p : FsPath) : Bool := fs.dirs.contains p

/-- The remainder of a path below a base: stripUnder b p = some s iff
p = b ++ s. -/
def stripUnder : FsPath → FsPath → Option FsPath
  | [], q => some q
  | _ :: _, [] => none
  | b :: bs, c :: cs => if b == c then stripUnder bs cs else none

/-- Whether the first path is a (not necessarily proper) leading part of the
second. -/
def isUnder : FsPath → FsPath → Bool
  | [], _ => true
  | _ :: _, [] => false
  | b :: bs, c :: cs => b == c && isUnder bs cs

/-- os.listdir restricted to directories: the names n with p ++ [n] an
existing directory.  (The handler applies os.listdir to directories whose
entries are themselves directories, so this is the part of the listing the
code consumes.) -/
def fsChildren (fs : FS) (p : FsPath) : List String :=
  fs.dirs.filterMap (fun q =>
    match stripUnder p q with
    | some [n] => some n
    | _ => none)

/-- os.rename on a directory: every existing path below the old path is
re-rooted below the new path. -/
def fsRename (fs : FS) (o n : FsPath) : FS :=
  ⟨fs.dirs.map (fun q =>
    match stripUnder o q with
    | some s => n ++ s
    | none => q)⟩

/-- os.mkdir guarded by an existence check, as add_class performs it. -/
def mkdirIfMissing (fs : FS) (p : FsPath) : FS :=
  if fsHas fs p then fs else ⟨fs.dirs ++ [p]⟩

/-- Modelled from the spec: the split set imported from the sense package
(from sense import SPLITS) is not part of this repository; the spec fixes
the splits as train and valid. -/
def SPLITS : List String := ["train", "valid"]

/-- Modelled from the spec: tools/directories.py is not part of this
repository.  The spec describes a pure split-level naming scheme, and
flip_videos in sense_studio.py joins the literal names videos_{split} and
tags_{split} under the project root; the other artifact kinds follow the
same convention. -/
def get_videos_dir (root : FsPath) (split : String) : FsPath := root ++ ["videos_" ++ split]

/-- Modelled from the spec: split-level frames directory, see get_videos_dir. -/
def get_frames_dir (root : FsPath) (split : String) : FsPath := root ++ ["frames_" ++ split]

/-- Modelled from the spec: split-level tags directory, see get_videos_dir. -/
def get_tags_dir (root : FsPath) (split : String) : FsPath := root ++ ["tags_" ++ split]

/-- Modelled from the spec: split-level features directory, see get_videos_dir. -/
def get_features_dir (root : FsPath) (split : String) : FsPath := root ++ ["features_" ++ split]

/-- add_class (sense_studio.py lines 222-244): unconditionally sets the
class entry to the empty tag list (overwriting an existing entry), persists
the config, then creates the missing per-split videos directories for the
class.  There is no duplicate check. -/
def add_class (root : FsPath) (cfg : Config) (fs : FS) (class_name : String) : Config × FS :=
  let cfg' := { cfg with classes := alistSet cfg.classes class_name [] }
  let fs' := SPLITS.foldl
    (fun acc split => mkdirIfMissing acc (get_videos_dir root split ++ [class_name])) fs
  (cfg', fs')

/-- The nested feature base directories for one split (sense_studio.py lines
292-298): when the split's features directory exists, one base per (model,
tuned-layers) pair discovered by listing it; otherwise none. -/
def featureDirs (fs : FS) (root : FsPath) (split : String) : List FsPath :=
  if fsHas fs (get_features_dir root split) then
    (fsChildren fs (get_features_dir root split)).flatMap (fun model_dir =>
      (fsChildren fs (get_features_dir root split ++ [model_dir])).map (fun tuned_layers =>
        get_features_dir root split ++ [model_dir, tuned_layers]))
  else []

/-- The full list of base directories edit_class enumerates (sense_studio.py
lines 284-298): per split the videos, frames and tags bases, plus the
dynamically discovered feature bases.  The list is computed against the
layout as it is at call time, before any rename. -/
def dataDirs (fs : FS) (root : FsPath) : List FsPath :=
  SPLITS.flatMap (fun split =>
    [get_videos_dir root split, get_frames_dir root split, get_tags_dir root split]
      ++ featureDirs fs root split)

/-- One iteration of the rename loop (sense_studio.py lines 300-305): if the
old class directory exists under the base, rename it, else do nothing. -/
def renameStep (old_name new_name : String) (acc : FS) (base : FsPath) : FS :=
  if fsHas acc (base ++ [old_name]) then
    fsRename acc (base ++ [old_name]) (base ++ [new_name])
  else acc

/-- The directory-rename phase of edit_class: fold the rename step over the
bases enumerated up front. -/
def renameClassDirs (fs : FS) (root : FsPath) (old_name new_name : String) : FS :=
  (dataDirs fs root).foldl (renameStep old_name new_name) fs

/-- edit_class (sense_studio.py lines 264-307): reads the old class's tag
list (KeyError if absent), deletes the old entry, writes the tag list under
the new name (overwriting an existing entry for that name - there is no
duplicate check), persists the config, then renames the class directories
under every enumerated base. -/
def edit_class (root : FsPath) (cfg : Config) (fs : FS) (class_name new_class_name : String) :
    Except Err (Config × FS) :=
  match alistLookup cfg.classes class_name with
  | none => .error .keyError
  | some tags =>
    let cfg' := { cfg with classes := alistSet (alistDel cfg.classes class_name) new_class_name tags }
    .ok (cfg', renameClassDirs fs root class_name new_class_name)

/-- Whether the pattern is the leading sequence of the string (both as char
lists). -/
def listStartsWith : List Char → List Char → Bool
  | [], _ => true
  | _ :: _, [] => false
  | p :: ps, c :: cs => p == c && listStartsWith ps cs

/-- Whether the string ends with the given suffix, as Python str.endswith. -/
def listEndsWith (suf s : List Char) : Bool := listStartsWith suf.reverse s.reverse

/-- Python substring membership (pat in s) for a pattern over a char list. -/
def containsSub (pat : List Char) : List Char → Bool
  | [] => listStartsWith pat []
  | c :: cs => listStartsWith pat (c :: cs) || containsSub pat cs

/-- Fuel-indexed body of replaceAll; the fuel is the length of the scanned
string, so the recursion is structural and executable by the kernel. -/
def replaceAllAux : Nat → List Char → List Char → List Char → List Char
  | 0, _, _, _ => []
  | _ + 1, _, _, [] => []
  | fuel + 1, pat, rep, c :: cs =>
    if listStartsWith pat (c :: cs) then
      rep ++ replaceAllAux fuel pat rep (cs.drop (pat.length - 1))
    else c :: replaceAllAux fuel pat rep cs

/-- Python str.replace(pat, rep) for a nonempty pattern: replace every
non-overlapping occurrence, scanning left to right.  With rep = [] this is
also Python rep.join(s.split(pat)) for rep = the empty string, i.e. removal
of every occurrence. -/
def replaceAll (pat rep s : List Char) : List Char := replaceAllAux s.length pat rep s

/-- The training video extension (sense_studio.py line 52: VIDEO_EXT = '.mp4'). -/
def extChars : List Char := ['.', 'm', 'p', '4']

/-- The flip marker used by flip_videos. -/
def markerChars : List Char := ['_', 'f', 'l', 'i', 'p', 'p', 'e', 'd']

/-- The annotation file extension used when copying tags. -/
def jsonExt : List Char := ['.', 'j', 's', 'o', 'n']

/-- Everything before the first dot: Python s.split('.')[0]. -/
def takeUntilDot : List Char → List Char
  | [] => []
  | c :: cs => if c == '.' then [] else c :: takeUntilDot cs

/-- The flipped-name computation of flip_videos (sense_studio.py lines
436-439): a name containing the _flipped marker maps to the name with every
occurrence of the marker removed (''.join(video.split('_flipped'))); any
other name maps to its first-dot stem (video.split('.')[0]) with the marker
appended plus the standard extension. -/
def flippedName (video : List Char) : List Char :=
  if containsSub markerChars video then replaceAll markerChars [] video
  else takeUntilDot video ++ markerChars ++ extChars

/-- A tag-annotation document: its file field (rewritten when tags are
copied to the flipped video) and the rest of the document, carried
verbatim. -/
structure TagDoc where
  file : List Char
  rest : List (List Char × List Char)
deriving DecidableEq, Repr

/-- The per-split state the flip pipeline mutates: the contents of the
counterpart videos directory, the write log of the counterpart tags
directory, the log of original annotation files read, and the videos
rendered by this invocation. -/
structure FlipSplitState where
  outVideos : List (List Char)
  tagsOut : List (List Char × TagDoc)
  readLog : List (List Char)
  rendered : List (List Char)
deriving DecidableEq, Repr

/-- The body of the per-video loop of flip_videos (sense_studio.py lines
433-463).  The counterpart videos directory is re-listed (filtered to the
video extension) at each iteration; when the flipped name is already
present, the iteration does nothing at all: no rendering, no annotation
read, no annotation write.  Otherwise the flipped video is rendered, and,
when the video is in the caller-supplied copy-tags set and its original
annotation file exists, that file is read, its file field replaced with the
flipped name, and the result written under the flipped name with the
extension swapped to .json. -/
def processVideo (copySet : List (List Char)) (origTags : List (List Char × TagDoc))
    (st : FlipSplitState) (video : List Char) : FlipSplitState :=
  let output_video_list := st.outVideos.filter (fun v => listEndsWith extChars v)
  let flipped_video_name := flippedName video
  if output_video_list.contains flipped_video_name then st
  else
    let st1 : FlipSplitState :=
      { st with outVideos := st.outVideos ++ [flipped_video_name],
                rendered := st.rendered ++ [flipped_video_name] }
    if copySet.contains video then
      let original_tags_file := replaceAll extChars jsonExt video
      match alistLookup origTags original_tags_file with
      | some doc =>
        { st1 with
            readLog := st1.readLog ++ [original_tags_file],
            tagsOut := st1.tagsOut ++
              [(replaceAll extChars jsonExt flipped_video_name, { doc with file := flipped_video_name })] }
      | none => st1
    else st1

/-- One split of the flip pipeline: the source listing is filtered to the
video extension and the per-video body folded over it. -/
def processSplit (copySet : List (List Char)) (origTags : List (List Char × TagDoc))
    (inVideos : List (List Char)) (st : FlipSplitState) : FlipSplitState :=
  (inVideos.filter (fun v => listEndsWith extChars v)).foldl (processVideo copySet origTags) st

/-- The request data and on-disk inputs of flip_videos: per split, the
caller-supplied copy-tags video set (videosToCopyTags), the listing of the
source class's videos directory, and the contents of the source class's
tags directory. -/
structure FlipInput where
  ctTrain : List (List Char)
  ctValid : List (List Char)
  inTrain : List (List Char)
  inValid : List (List Char)
  tagsTrain : List (List Char × TagDoc)
  tagsValid : List (List Char × TagDoc)
deriving DecidableEq, Repr

/-- The outcome of flip_videos: the final config, whether the config was
written by the counterpart-creation step, and the final per-split states. -/
structure FlipResult where
  cfg : Config
  cfgWritten : Bool
  stTrain : FlipSplitState
  stValid : FlipSplitState
deriving DecidableEq, Repr

/-- flip_videos (sense_studio.py lines 402-466).  First the config step
(lines 416-419): when the counterpart class is not yet a key in classes, its
entry is created - with the source class's tag list if videosToCopyTags has
a nonempty list for train or for valid (Python truthiness of
copy_video_tags['train'] or copy_video_tags['valid']), reading the source
class's entry only in that case (KeyError if it is absent), and with the
empty list otherwise - and the config is written, once, before any split is
processed.  When the counterpart class already exists the config is neither
changed nor written.  Then each split is processed in turn.  Directory
creation (os.makedirs with exist_ok) is below the granularity of this model,
which tracks directory contents directly. -/
def flip_videos (cfg : Config) (original_class_name counterpart_class_name : String)
    (inp : FlipInput) (st0Train st0Valid : FlipSplitState) : Except Err FlipResult := do
  let step ←
    if (alistLookup cfg.classes counterpart_class_name).isSome then
      pure (cfg, false)
    else if inp.ctTrain.isEmpty && inp.ctValid.isEmpty then
      pure ({ cfg with classes := alistSet cfg.classes counterpart_class_name [] }, true)
    else
      match alistLookup cfg.classes original_class_name with
      | none => Except.error Err.keyError
      | some tags =>
        pure ({ cfg with classes := alistSet cfg.classes counterpart_class_name tags }, true)
  .ok { cfg := step.1, cfgWritten := step.2,
        stTrain := processSplit inp.ctTrain inp.tagsTrain inp.inTrain st0Train,
        stValid := processSplit inp.ctValid inp.tagsValid inp.inValid st0Valid }

theorem alistLookup_set_self {κ α : Type} [BEq κ] [LawfulBEq κ]
    (l : List (κ × α)) (k : κ) (v : α) : alistLookup (alistSet l k v) k = some v := by
  induction l with
  | nil => simp [alistSet, alistLookup]
  | cons p r ih =>
    obtain ⟨k1, v1⟩ := p
    by_cases h : k1 = k
    · subst h; simp [alistSet, alistLookup]
    · simp [alistSet, alistLookup, h, ih]

theorem alistLookup_set_other {κ α : Type} [BEq κ] [LawfulBEq κ]
    (l : List (κ × α)) (k k' : κ) (v : α) (h : k' ≠ k) :
    alistLookup (alistSet l k v) k' = alistLookup l k' := by
  induction l with
  | nil => simp [alistSet, alistLookup, Ne.symm h]
  | cons p r ih =>
    obtain ⟨k1, v1⟩ := p
    by_cases h1 : k1 = k
    · subst h1; simp [alistSet, alistLookup, Ne.symm h]
    · by_cases h2 : k1 = k'
      · subst h2; simp [alistSet, alistLookup, h1]
      · simp [alistSet, alistLookup, h1, h2, ih]

theorem alistLookup_del_self {κ α : Type} [BEq κ] [LawfulBEq κ]
    (l : List (κ × α)) (k : κ) : alistLookup (alistDel l k) k = none := by
  induction l with
  | nil => simp [alistDel, alistLookup]
  | cons p r ih =>
    obtain ⟨k1, v1⟩ := p
    by_cases h : k1 = k
    · subst h; simpa [alistDel, alistLookup] using ih
    · simpa [alistDel, alistLookup, h] using ih

theorem alistLookup_del_other {κ α : Type} [BEq κ] [LawfulBEq κ]
    (l : List (κ × α)) (k k' : κ) (h : k' ≠ k) :
    alistLookup (alistDel l k) k' = alistLookup l k' := by
  induction l with
  | nil => simp [alistDel]
  | cons p r ih =>
    obtain ⟨k1, v1⟩ := p
    by_cases h1 : k1 = k
    · subst h1
      have hne : ¬(k1 == k') = true := by simp [Ne.symm h]
      simpa [alistDel, alistLookup, hne] using ih
    · by_cases h2 : k1 = k'
      · subst h2; simp [alistDel, alistLookup, h1]
      · simpa [alistDel, alistLookup, h1, h2] using ih

theorem alistSet_set {κ α : Type} [BEq κ] [LawfulBEq κ]
    (l : List (κ × α)) (k : κ) (v w : α) :
    alistSet (alistSet l k v) k w = alistSet l k w := by
  induction l with
  | nil => simp [alistSet]
  | cons p r ih =>
    obtain ⟨k1, v1⟩ := p
    by_cases h : k1 = k
    · subst h; simp [alistSet]
    · simp [alistSet, h, ih]

theorem alistSet_lookup_self {κ α : Type} [BEq κ] [LawfulBEq κ]
    (l : List (κ × α)) (k : κ) (v : α) (h : alistLookup l k = some v) :
    alistSet l k v = l := by
  induction l with
  | nil => simp [alistLookup] at h
  | cons p r ih =>
    obtain ⟨k1, v1⟩ := p
    by_cases h1 : k1 = k
    · subst h1
      simp only [alistLookup, beq_self_eq_true, if_true, Option.some.injEq] at h
      simp [alistSet, h]
    · simp only [alistLookup, beq_iff_eq, h1, if_false] at h
      simp [alistSet, h1, ih h]

theorem sortNat_sorted (l : List Nat) : List.Sorted (· ≤ ·) (sortNat l) :=
  List.sorted_insertionSort (· ≤ ·) l

theorem sortNat_perm (l : List Nat) : (sortNat l).Perm l :=
  List.perm_insertionSort (· ≤ ·) l

theorem mem_sortNat_append (L : List Nat) (x : Nat) : x ∈ sortNat (L ++ [x]) :=
  ((sortNat_perm (L ++ [x])).mem_iff).mpr (List.mem_append_right L (List.mem_singleton.mpr rfl))

/-- Appending an element to a sorted list, re-sorting, and erasing the first
occurrence of that element restores the original list. -/
theorem erase_sortNat_append (L : List Nat) (x : Nat) (hL : List.Sorted (· ≤ ·) L) :
    (sortNat (L ++ [x])).erase x = L := by
  have hmem : x ∈ sortNat (L ++ [x]) := mem_sortNat_append L x
  have hperm : (sortNat (L ++ [x])).erase x |>.Perm L := by
    have h1 : (sortNat (L ++ [x])).Perm (x :: (sortNat (L ++ [x])).erase x) :=
      List.perm_cons_erase hmem
    have h2 : (sortNat (L ++ [x])).Perm (x :: L) :=
      (sortNat_perm (L ++ [x])).trans (List.perm_append_singleton x L)
    exact (List.perm_cons x).mp (h1.symm.trans h2)
  have hsorted : List.Sorted (· ≤ ·) ((sortNat (L ++ [x])).erase x) :=
    List.Pairwise.sublist (List.erase_sublist x (sortNat (L ++ [x]))) (sortNat_sorted (L ++ [x]))
  exact List.eq_of_perm_of_sorted hperm hsorted hL

/-- Claim C1 counterexample: assigning a tag index that is already in the
class's tag list is not a no-op - the handler appends a duplicate - and
assigning the same index twice from an empty list yields [2, 2], not the
[2] that assigning it once yields. -/
theorem c1_assign_tag_counterexample :
    assign_tag_to_class ⟨[("a", [2])], ""⟩ "a" 2 = .ok ⟨[("a", [2, 2])], ""⟩
    ∧ assign_tag_to_class ⟨[("a", [2])], ""⟩ "a" 2 ≠ .ok ⟨[("a", [2])], ""⟩
    ∧ (assign_tag_to_class ⟨[("a", [])], ""⟩ "a" 2).bind (fun c => assign_tag_to_class c "a" 2)
        = .ok ⟨[("a", [2, 2])], ""⟩
    ∧ assign_tag_to_class ⟨[("a", [])], ""⟩ "a" 2 = .ok ⟨[("a", [2])], ""⟩ := by
  refine ⟨rfl, ?_, rfl, rfl⟩
  decide

/-- Claim C1 amended: assign_tag_to_class has multiset, not set, semantics.
For a class present in the config it always appends the given index and
re-sorts ascending: the persisted list is sorted, contains one more
occurrence of the index than before (so duplicate assignment grows the
list instead of being a no-op), the occurrences of every other index are
unchanged, and every other class is untouched. -/
theorem c1_assign_tag_appends (cfg : Config) (cn : String) (ti : Nat) (L : List Nat)
    (h : alistLookup cfg.classes cn = some L) :
    ∃ cfg', assign_tag_to_class cfg cn ti = .ok cfg'
      ∧ alistLookup cfg'.classes cn = some (sortNat (L ++ [ti]))
      ∧ List.Sorted (· ≤ ·) (sortNat (L ++ [ti]))
      ∧ List.count ti (sortNat (L ++ [ti])) = List.count ti L + 1
      ∧ (∀ y, y ≠ ti → List.count y (sortNat (L ++ [ti])) = List.count y L)
      ∧ (∀ k, k ≠ cn → alistLookup cfg'.classes k = alistLookup cfg.classes k)
      ∧ cfg'.rest = cfg.rest := by
  refine ⟨{ cfg with classes := alistSet cfg.classes cn (sortNat (L ++ [ti])) },
    ?_, ?_, sortNat_sorted _, ?_, ?_, ?_, rfl⟩
  · rw [assign_tag_to_class, h]
  · exact alistLookup_set_self _ _ _
  · rw [(sortNat_perm (L ++ [ti])).count_eq, List.count_append]
    simp
  · intro y hy
    rw [(sortNat_perm (L ++ [ti])).count_eq, List.count_append]
    simp [List.count_singleton', hy]
  · intro k hk
    exact alistLookup_set_other _ _ _ _ hk

theorem c1_assign_tag_appends_witness :
    alistLookup (Config.mk [("a", [2])] "").classes "a" = some [2]
    ∧ ∃ cfg', assign_tag_to_class ⟨[("a", [2])], ""⟩ "a" 2 = .ok cfg'
      ∧ alistLookup cfg'.classes "a" = some (sortNat ([2] ++ [2]))
      ∧ List.Sorted (· ≤ ·) (sortNat ([2] ++ [2]))
      ∧ List.count 2 (sortNat ([2] ++ [2])) = List.count 2 [2] + 1
      ∧ (∀ y, y ≠ 2 → List.count y (sortNat ([2] ++ [2])) = List.count y [2])
      ∧ (∀ k, k ≠ "a" → alistLookup cfg'.classes k = alistLookup (Config.mk [("a", [2])] "").classes k)
      ∧ cfg'.rest = (Config.mk [("a", [2])] "").rest :=
  ⟨rfl, c1_assign_tag_appends ⟨[("a", [2])], ""⟩ "a" 2 [2] rfl⟩

/-- Claim C2 counterexample: add_class on a class name that is already a
key does not fail with Duplicate; it resets the existing class's tag list
to the empty list. -/
theorem c2_add_class_counterexample :
    (add_class [] ⟨[("a", [1])], ""⟩ ⟨[]⟩ "a").1 = ⟨[("a", [])], ""⟩
    ∧ (Config.mk [("a", [])] "") ≠ ⟨[("a", [1])], ""⟩ := by
  refine ⟨rfl, ?_⟩
  decide

/-- Claim C2 amended: add_class performs no duplicate check.  For every
config it sets the given class's entry to the empty tag list (overwriting
an existing tag list), leaves every other class unchanged, persists, and
then creates exactly the missing per-split videos directories for that
class: afterwards each split's videos directory for the class exists, and a
path exists afterwards iff it existed before or is one of those class
videos directories. -/
theorem c2_add_class_resets :
    ∀ (root : FsPath) (cfg : Config) (fs : FS) (cn : String),
      alistLookup (add_class root cfg fs cn).1.classes cn = some []
      ∧ (∀ k, k ≠ cn → alistLookup (add_class root cfg fs cn).1.classes k = alistLookup cfg.classes k)
      ∧ (add_class root cfg fs cn).1.rest = cfg.rest
      ∧ (∀ s, s ∈ SPLITS → fsHas (add_class root cfg fs cn).2 (get_videos_dir root s ++ [cn]) = true)
      ∧ (∀ p, p ∈ (add_class root cfg fs cn).2.dirs ↔
          p ∈ fs.dirs ∨ ∃ s, s ∈ SPLITS ∧ p = get_videos_dir root s ++ [cn]) := by
  intro root cfg fs cn
  have hmem : ∀ (l : List String) (fs0 : FS) (p : FsPath),
      p ∈ (l.foldl (fun acc split => mkdirIfMissing acc (get_videos_dir root split ++ [cn])) fs0).dirs
        ↔ p ∈ fs0.dirs ∨ ∃ s, s ∈ l ∧ p = get_videos_dir root s ++ [cn] := by
    intro l
    induction l with
    | nil => simp
    | cons a r ih =>
      intro fs0 p
      rw [List.foldl_cons, ih]
      constructor
      · rintro (hp | hs)
        · rw [mkdirIfMissing] at hp
          by_cases hex : fsHas fs0 (get_videos_dir root a ++ [cn]) = true
          · rw [if_pos hex] at hp
            exact Or.inl hp
          · rw [if_neg hex] at hp
            rcases List.mem_append.mp hp with hp | hp
            · exact Or.inl hp
            · exact Or.inr ⟨a, List.mem_cons_self a r, (List.mem_singleton.mp hp)⟩
        · obtain ⟨s, hs1, hs2⟩ := hs
          exact Or.inr ⟨s, List.mem_cons_of_mem a hs1, hs2⟩
      · rintro (hp | ⟨s, hs1, hs2⟩)
        · left
          rw [mkdirIfMissing]
          by_cases hex : fsHas fs0 (get_videos_dir root a ++ [cn]) = true
          · rwa [if_pos hex]
          · rw [if_neg hex]
            exact List.mem_append_left _ hp
        · rcases List.mem_cons.mp hs1 with hs1 | hs1
          · subst hs1; subst hs2
            left
            rw [mkdirIfMissing]
            by_cases hex : fsHas fs0 (get_videos_dir root s ++ [cn]) = true
            · rw [if_pos hex]
              exact List.elem_iff.mp hex
            · rw [if_neg hex]
              exact List.mem_append_right _ (List.mem_singleton.mpr rfl)
          · exact Or.inr ⟨s, hs1, hs2⟩
  refine ⟨alistLookup_set_self _ _ _, ?_, rfl, ?_, ?_⟩
  · intro k hk
    exact alistLookup_set_other _ _ _ _ hk
  · intro s hs
    apply List.elem_eq_true_of_mem
    exact (hmem SPLITS fs _).mpr (Or.inr ⟨s, hs, rfl⟩)
  · intro p
    exact hmem SPLITS fs p

/-- Claim C3 counterexample: renaming left to wave_left while wave_left
already exists does not fail with Duplicate; the call succeeds, wave_left's
former tag list [2] is overwritten with left's [0, 1], and the config
differs from the one before the call. -/
theorem c3_edit_class_counterexample :
    edit_class [] ⟨[("left", [0, 1]), ("wave_left", [2])], ""⟩ ⟨[]⟩ "left" "wave_left"
        = .ok (⟨[("wave_left", [0, 1])], ""⟩, ⟨[]⟩)
    ∧ (Config.mk [("wave_left", [0, 1])] "") ≠ ⟨[("left", [0, 1]), ("wave_left", [2])], ""⟩ := by
  refine ⟨rfl, ?_⟩
  decide

/-- Claim C3 amended: edit_class fails with KeyError (the spec's NotFound)
when the old class name is absent; but when the new class name is already
present it does not fail with Duplicate - the call succeeds, the new name's
entry is overwritten with the old name's tag list, and the old name's entry
is removed. -/
theorem c3_edit_class_overwrites :
    (∀ (root : FsPath) (cfg : Config) (fs : FS) (cn ncn : String),
      alistLookup cfg.classes cn = none → edit_class root cfg fs cn ncn = .error .keyError)
    ∧ (∀ (root : FsPath) (cfg : Config) (fs : FS) (cn ncn : String) (t u : List Nat),
      alistLookup cfg.classes cn = some t → alistLookup cfg.classes ncn = some u → cn ≠ ncn →
      ∃ out, edit_class root cfg fs cn ncn = .ok out
        ∧ alistLookup out.1.classes ncn = some t
        ∧ alistLookup out.1.classes cn = none
        ∧ out.1.rest = cfg.rest) := by
  constructor
  · intro root cfg fs cn ncn h
    rw [edit_class, h]
  · intro root cfg fs cn ncn t u h hn hne
    refine ⟨({ cfg with classes := alistSet (alistDel cfg.classes cn) ncn t },
      renameClassDirs fs root cn ncn), ?_, ?_, ?_, rfl⟩
    · rw [edit_class, h]
    · exact alistLookup_set_self _ _ _
    · rw [alistLookup_set_other _ _ _ _ hne]
      exact alistLookup_del_self _ _

/-- Claim C4 counterexample: removing a project name that is absent from
the overview table is not a silent no-op - the handler raises KeyError
instead of returning the table unchanged. -/
theorem c4_remove_project_counterexample :
    remove_project [("p", "x")] "q" = .error .keyError
    ∧ remove_project [("p", "x")] "q" ≠ .ok [("p", "x")] := by
  refine ⟨rfl, ?_⟩
  decide

/-- Claim C4 amended: remove_project on an absent name raises KeyError (the
del on the overview dict) rather than silently no-op-ing; the persisted
table is unchanged only because the failure happens before the write.  On a
present name it removes exactly that entry and keeps every other entry. -/
theorem c4_remove_project_raises :
    (∀ (reg : Registry) (n : String),
      alistLookup reg n = none → remove_project reg n = .error .keyError)
    ∧ (∀ (reg : Registry) (n : String) (p : String), alistLookup reg n = some p →
      remove_project reg n = .ok (alistDel reg n)
        ∧ alistLookup (alistDel reg n) n = none
        ∧ (∀ m, m ≠ n → alistLookup (alistDel reg n) m = alistLookup reg m)) := by
  constructor
  · intro reg n h
    rw [remove_project, h]
  · intro reg n p h
    refine ⟨by rw [remove_project, h], alistLookup_del_self _ _, ?_⟩
    intro m hm
    exact alistLookup_del_other _ _ _ hm

/-- Claim C5: remove_tag_from_class fails (KeyError, the spec's NotFound)
when the class is absent, fails (ValueError, the spec's NotFound) when the
index is not in the class's tag list, and when the index is present removes
exactly its first occurrence and touches no other class; moreover
unassigning an index right after assigning it restores the pre-assignment
tag list exactly (for any config whose tag list is sorted ascending, the
documented invariant). -/
theorem c5_unassign_tag_spec :
    (∀ (cfg : Config) (cn : String) (ti : Nat),
      alistLookup cfg.classes cn = none → remove_tag_from_class cfg cn ti = .error .keyError)
    ∧ (∀ (cfg : Config) (cn : String) (ti : Nat) (L : List Nat),
      alistLookup cfg.classes cn = some L → ti ∉ L →
      remove_tag_from_class cfg cn ti = .error .valueError)
    ∧ (∀ (cfg : Config) (cn : String) (ti : Nat) (L : List Nat),
      alistLookup cfg.classes cn = some L → ti ∈ L →
      ∃ cfg', remove_tag_from_class cfg cn ti = .ok cfg'
        ∧ alistLookup cfg'.classes cn = some (L.erase ti)
        ∧ (∀ k, k ≠ cn → alistLookup cfg'.classes k = alistLookup cfg.classes k)
        ∧ cfg'.rest = cfg.rest)
    ∧ (∀ (cfg : Config) (cn : String) (ti : Nat) (L : List Nat),
      alistLookup cfg.classes cn = some L → List.Sorted (· ≤ ·) L →
      (assign_tag_to_class cfg cn ti).bind (fun c => remove_tag_from_class c cn ti) = .ok cfg) := by
  refine ⟨?_, ?_, ?_, ?_⟩
  · intro cfg cn ti h
    rw [remove_tag_from_class, h]
  · intro cfg cn ti L h hni
    simp only [remove_tag_from_class, h]
    rw [if_neg (fun hc => hni (List.elem_iff.mp hc))]
  · intro cfg cn ti L h hmem
    refine ⟨{ cfg with classes := alistSet cfg.classes cn (L.erase ti) }, ?_, ?_, ?_, rfl⟩
    · simp only [remove_tag_from_class, h]
      rw [if_pos (List.elem_eq_true_of_mem hmem)]
    · exact alistLookup_set_self _ _ _
    · intro k hk
      exact alistLookup_set_other _ _ _ _ hk
  · intro cfg cn ti L h hs
    rw [assign_tag_to_class, h]
    show remove_tag_from_class { cfg with classes := alistSet cfg.classes cn (sortNat (L ++ [ti])) } cn ti = .ok cfg
    rw [remove_tag_from_class]
    simp only [alistLookup_set_self]
    rw [if_pos (List.elem_eq_true_of_mem (mem_sortNat_append L ti))]
    rw [erase_sortNat_append L ti hs, alistSet_set, alistSet_lookup_self _ _ _ h]

theorem c5_unassign_tag_spec_witness :
    (remove_tag_from_class ⟨[("left", [0, 1]), ("right", [])], ""⟩ "right" 5 = .error .valueError)
    ∧ ((assign_tag_to_class ⟨[("left", [0, 1]), ("right", [])], ""⟩ "right" 2).bind
        (fun c => remove_tag_from_class c "right" 2) = .ok ⟨[("left", [0, 1]), ("right", [])], ""⟩) :=
  ⟨(c5_unassign_tag_spec.2.1 ⟨[("left", [0, 1]), ("right", [])], ""⟩ "right" 5 [] rfl (by decide)),
   (c5_unassign_tag_spec.2.2.2 ⟨[("left", [0, 1]), ("right", [])], ""⟩ "right" 2 [] rfl (by decide))⟩

/-- Claim C8: remove_class on a class present in the config succeeds,
deletes exactly that class's entry from the classes mapping, preserves
every other entry and the rest of the config document, and returns the
directory layout it was given untouched - no directory mutation at all. -/
theorem c8_remove_class_frame (cfg : Config) (fs : FS) (cn : String) (t : List Nat)
    (h : alistLookup cfg.classes cn = some t) :
    ∃ out, remove_class cfg fs cn = .ok out
      ∧ out.2 = fs
      ∧ alistLookup out.1.classes cn = none
      ∧ (∀ k, k ≠ cn → alistLookup out.1.classes k = alistLookup cfg.classes k)
      ∧ out.1.rest = cfg.rest := by
  refine ⟨({ cfg with classes := alistDel cfg.classes cn }, fs), ?_, rfl, ?_, ?_, rfl⟩
  · rw [remove_class, h]
  · exact alistLookup_del_self _ _
  · intro k hk
    exact alistLookup_del_other _ _ _ hk

theorem c8_remove_class_frame_witness :
    alistLookup (Config.mk [("a", [1])] "").classes "a" = some [1]
    ∧ ∃ out, remove_class (Config.mk [("a", [1])] "") (FS.mk [["p", "videos_train", "a"]]) "a" = .ok out
      ∧ out.2 = FS.mk [["p", "videos_train", "a"]]
      ∧ alistLookup out.1.classes "a" = none
      ∧ (∀ k, k ≠ "a" → alistLookup out.1.classes k = alistLookup (Config.mk [("a", [1])] "").classes k)
      ∧ out.1.rest = (Config.mk [("a", [1])] "").rest :=
  ⟨rfl, c8_remove_class_frame ⟨[("a", [1])], ""⟩ ⟨[["p", "videos_train", "a"]]⟩ "a" [1] rfl⟩

theorem listStartsWith_append_self (p b : List Char) : listStartsWith p (p ++ b) = true := by
  induction p with
  | nil => rfl
  | cons c cs ih => simp [listStartsWith, ih]

theorem listStartsWith_append_of_le (p s X : List Char) (h : p.length ≤ s.length) :
    listStartsWith p (s ++ X) = listStartsWith p s := by
  induction p generalizing s with
  | nil => rfl
  | cons c cs ih =>
    cases s with
    | nil => simp at h
    | cons c1 s1 =>
      simp only [List.length_cons, Nat.succ_le_succ_iff] at h
      simp [listStartsWith, ih s1 h]

theorem listStartsWith_append_right (p u w : List Char) (h : listStartsWith p u = true) :
    listStartsWith p (u ++ w) = true := by
  induction p generalizing u with
  | nil => rfl
  | cons c cs ih =>
    cases u with
    | nil => simp [listStartsWith] at h
    | cons c1 u1 =>
      simp only [listStartsWith, Bool.and_eq_true] at h
      simp [listStartsWith, h.1, ih u1 h.2]

theorem listStartsWith_tail_false (p c : Char) (ps cs : List Char)
    (h : listStartsWith ps cs = false) : listStartsWith (p :: ps) (c :: cs) = false := by
  simp [listStartsWith, h]

theorem containsSub_append_right (p u w : List Char) (h : containsSub p u = true) :
    containsSub p (u ++ w) = true := by
  induction u with
  | nil =>
    cases p with
    | nil =>
      cases w with
      | nil => rfl
      | cons c1 w1 => simp [containsSub, listStartsWith]
    | cons c1 p1 => simp [containsSub, listStartsWith] at h
  | cons c u1 ih =>
    simp only [containsSub, Bool.or_eq_true] at h
    rcases h with h | h
    · simp only [List.cons_append, containsSub, Bool.or_eq_true]
      exact Or.inl (listStartsWith_append_right _ _ _ h)
    · simp only [List.cons_append, containsSub, Bool.or_eq_true]
      exact Or.inr (ih h)

theorem containsSub_mid (p a b : List Char) (hp : p ≠ []) :
    containsSub p (a ++ p ++ b) = true := by
  induction a with
  | nil =>
    cases p with
    | nil => exact absurd rfl hp
    | cons c p1 =>
      simp only [List.nil_append, List.cons_append, containsSub, Bool.or_eq_true]
      exact Or.inl (listStartsWith_append_self (c :: p1) b)
  | cons c a1 ih =>
    simp only [List.cons_append, containsSub, Bool.or_eq_true]
    right
    simpa using ih

/-- The marker has no nontrivial border: no nonempty strict leading part of
a string shorter than the marker can start an occurrence of the marker that
continues into an appended marker-plus-extension.  Checked case by case on
the length of the leading part. -/
theorem marker_no_border (u : List Char) (hne : u ≠ []) (hlt : u.length < 8) :
    listStartsWith markerChars (u ++ (markerChars ++ extChars)) = false := by
  rcases u with _ | ⟨a, _ | ⟨b, _ | ⟨c, _ | ⟨d, _ | ⟨e, _ | ⟨f, _ | ⟨g, _ | ⟨h8, rest⟩⟩⟩⟩⟩⟩⟩⟩
  · exact absurd rfl hne
  · exact listStartsWith_tail_false _ _ _ _ (by decide)
  · exact listStartsWith_tail_false _ _ _ _ (listStartsWith_tail_false _ _ _ _ (by decide))
  · exact listStartsWith_tail_false _ _ _ _ (listStartsWith_tail_false _ _ _ _
      (listStartsWith_tail_false _ _ _ _ (by decide)))
  · exact listStartsWith_tail_false _ _ _ _ (listStartsWith_tail_false _ _ _ _
      (listStartsWith_tail_false _ _ _ _ (listStartsWith_tail_false _ _ _ _ (by decide))))
  · exact listStartsWith_tail_false _ _ _ _ (listStartsWith_tail_false _ _ _ _
      (listStartsWith_tail_false _ _ _ _ (listStartsWith_tail_false _ _ _ _
        (listStartsWith_tail_false _ _ _ _ (by decide)))))
  · exact listStartsWith_tail_false _ _ _ _ (listStartsWith_tail_false _ _ _ _
      (listStartsWith_tail_false _ _ _ _ (listStartsWith_tail_false _ _ _ _
        (listStartsWith_tail_false _ _ _ _ (listStartsWith_tail_false _ _ _ _ (by decide))))))
  · exact listStartsWith_tail_false _ _ _ _ (listStartsWith_tail_false _ _ _ _
      (listStartsWith_tail_false _ _ _ _ (listStartsWith_tail_false _ _ _ _
        (listStartsWith_tail_false _ _ _ _ (listStartsWith_tail_false _ _ _ _
          (listStartsWith_tail_false _ _ _ _ (by decide)))))))
  · simp at hlt
    omega

theorem replaceAllAux_nil_string (f : Nat) (pat rep : List Char) :
    replaceAllAux f pat rep [] = [] := by
  cases f with
  | zero => rfl
  | succ n => rfl

theorem replaceAllAux_step_no_match (f : Nat) (pat rep : List Char) (c : Char) (cs : List Char)
    (h : listStartsWith pat (c :: cs) = false) :
    replaceAllAux (f + 1) pat rep (c :: cs) = c :: replaceAllAux f pat rep cs := by
  simp [replaceAllAux, h]

theorem replaceAllAux_step_match (f : Nat) (pat rep : List Char) (c : Char) (cs : List Char)
    (h : listStartsWith pat (c :: cs) = true) :
    replaceAllAux (f + 1) pat rep (c :: cs) = rep ++ replaceAllAux f pat rep (cs.drop (pat.length - 1)) := by
  simp [replaceAllAux, h]

theorem replaceAllAux_marker_ext (m : Nat) :
    replaceAllAux (m + 4) markerChars [] extChars = extChars := by
  show replaceAllAux (m + 4) markerChars [] ('.' :: ['m', 'p', '4']) = extChars
  rw [replaceAllAux_step_no_match _ _ _ _ _ (by decide)]
  rw [replaceAllAux_step_no_match _ _ _ _ _ (by decide)]
  rw [replaceAllAux_step_no_match _ _ _ _ _ (by decide)]
  rw [replaceAllAux_step_no_match _ _ _ _ _ (by decide)]
  rw [replaceAllAux_nil_string]
  rfl

/-- Scanning a marker-free string followed by the marker and the extension
removes exactly the appended marker: because the marker is border-free, no
occurrence can start inside the marker-free part. -/
theorem replaceAllAux_strip_marker (f : Nat) (s : List Char)
    (hf : (s ++ markerChars ++ extChars).length ≤ f)
    (hs : containsSub markerChars s = false) :
    replaceAllAux f markerChars [] (s ++ markerChars ++ extChars) = s ++ extChars := by
  induction f generalizing s with
  | zero =>
    exfalso
    have hlen : (s ++ markerChars ++ extChars).length = s.length + 12 := by
      simp [markerChars, extChars]
    omega
  | succ n ih =>
    cases s with
    | nil =>
      simp only [List.nil_append]
      have hconc : markerChars ++ extChars = '_' :: (['f', 'l', 'i', 'p', 'p', 'e', 'd'] ++ extChars) := rfl
      rw [hconc, replaceAllAux_step_match _ _ _ _ _ (by decide)]
      have hdrop : (['f', 'l', 'i', 'p', 'p', 'e', 'd'] ++ extChars).drop (markerChars.length - 1)
          = extChars := by decide
      rw [hdrop, List.nil_append]
      have hn : 4 ≤ n := by
        have hlen : (([] : List Char) ++ markerChars ++ extChars).length = 12 := by
          simp [markerChars, extChars]
        omega
      obtain ⟨k, hk⟩ : ∃ k, n = k + 4 := ⟨n - 4, by omega⟩
      rw [hk]
      exact replaceAllAux_marker_ext k
    | cons c s1 =>
      simp only [containsSub, Bool.or_eq_false_iff] at hs
      have hshape : (c :: s1) ++ markerChars ++ extChars
          = c :: (s1 ++ markerChars ++ extChars) := by simp
      have hB : listStartsWith markerChars (c :: (s1 ++ markerChars ++ extChars)) = false := by
        rcases le_or_lt 8 (c :: s1).length with hlen | hlen
        · have heq : c :: (s1 ++ markerChars ++ extChars)
              = (c :: s1) ++ (markerChars ++ extChars) := by simp
          rw [heq, listStartsWith_append_of_le _ _ _ (by simpa [markerChars] using hlen)]
          exact hs.1
        · have heq : c :: (s1 ++ markerChars ++ extChars)
              = (c :: s1) ++ (markerChars ++ extChars) := by simp
          rw [heq]
          exact marker_no_border (c :: s1) (by simp) hlen
      rw [hshape, replaceAllAux_step_no_match _ _ _ _ _ hB]
      have hf1 : (s1 ++ markerChars ++ extChars).length ≤ n := by
        rw [hshape] at hf
        simpa using Nat.le_of_succ_le_succ (by simpa using hf)
      rw [ih s1 hf1 hs.2]
      simp

theorem takeUntilDot_append_exists (v : List Char) : ∃ r, takeUntilDot v ++ r = v := by
  induction v with
  | nil => exact ⟨[], rfl⟩
  | cons c cs ih =>
    by_cases h : c = '.'
    · subst h; exact ⟨'.' :: cs, by simp [takeUntilDot]⟩
    · obtain ⟨r, hr⟩ := ih
      exact ⟨r, by simp [takeUntilDot, h, hr]⟩

theorem containsSub_takeUntilDot (v : List Char) (h : containsSub markerChars v = false) :
    containsSub markerChars (takeUntilDot v) = false := by
  obtain ⟨r, hr⟩ := takeUntilDot_append_exists v
  cases hq : containsSub markerChars (takeUntilDot v) with
  | false => rfl
  | true =>
    have := containsSub_append_right markerChars (takeUntilDot v) r hq
    rw [hr, h] at this
    exact absurd this (by simp)

/-- Claim C6 counterexample: the flip-naming round trip is not the identity
on every video file name.  For a.b.mp4 (a valid .mp4 name whose stem
contains a dot) the append step truncates the stem at the first dot, so
applying the function twice yields a.mp4, not the original name. -/
theorem c6_flipped_name_counterexample :
    flippedName (chars "a.b.mp4") = chars "a_flipped.mp4"
    ∧ flippedName (flippedName (chars "a.b.mp4")) = chars "a.mp4"
    ∧ chars "a.mp4" ≠ chars "a.b.mp4" := by
  refine ⟨by decide, by decide, by decide⟩

/-- Claim C6 amended: on a marker-free name the double application of the
flipped-name function (append marker, then strip marker) yields the
first-dot stem plus the standard extension; it returns the original name
exactly when the original is its first-dot stem plus the .mp4 extension
(in particular whenever the stem contains no dot), and truncates at the
first dot otherwise.  Marker-containing names map to the name with every
marker occurrence removed, as the definition of flippedName states. -/
theorem c6_flipped_name_double (v : List Char) (h : containsSub markerChars v = false) :
    flippedName (flippedName v) = takeUntilDot v ++ extChars
    ∧ (takeUntilDot v ++ extChars = v → flippedName (flippedName v) = v) := by
  have h1 : flippedName v = takeUntilDot v ++ markerChars ++ extChars := by
    rw [flippedName, if_neg (by simp [h])]
  have h2 : flippedName (takeUntilDot v ++ markerChars ++ extChars)
      = takeUntilDot v ++ extChars := by
    rw [flippedName, if_pos (containsSub_mid markerChars (takeUntilDot v) extChars (by decide))]
    rw [replaceAll]
    exact replaceAllAux_strip_marker _ _ (Nat.le_refl _) (containsSub_takeUntilDot v h)
  refine ⟨by rw [h1, h2], ?_⟩
  intro hv
  rw [h1, h2, hv]

theorem c6_flipped_name_double_witness :
    containsSub markerChars (chars "a.mp4") = false
    ∧ (flippedName (flippedName (chars "a.mp4")) = takeUntilDot (chars "a.mp4") ++ extChars
      ∧ (takeUntilDot (chars "a.mp4") ++ extChars = chars "a.mp4" →
          flippedName (flippedName (chars "a.mp4")) = chars "a.mp4")) :=
  ⟨by decide, c6_flipped_name_double (chars "a.mp4") (by decide)⟩

/-- Claim C10: in the flip pipeline, when a source video's flipped name is
already present in the counterpart videos directory listing, the whole
iteration is a no-op: nothing is rendered, no annotation file is read and
none is written - even when the video is in the caller-supplied copy-tags
set for the split.  The tag-copy step is reached only for videos whose
flipped output was newly rendered in this invocation. -/
theorem c10_flip_skip_existing (copySet : List (List Char))
    (origTags : List (List Char × TagDoc)) (st : FlipSplitState) (video : List Char)
    (h : (st.outVideos.filter (fun v => listEndsWith extChars v)).contains (flippedName video) = true) :
    processVideo copySet origTags st video = st := by
  simp only [processVideo, h, if_true]

theorem c10_flip_skip_existing_witness :
    ((FlipSplitState.mk [chars "a_flipped.mp4"] [] [] []).outVideos.filter
        (fun v => listEndsWith extChars v)).contains (flippedName (chars "a.mp4")) = true
    ∧ processVideo [chars "a.mp4"] [(chars "a.json", ⟨chars "a.mp4", []⟩)]
        (FlipSplitState.mk [chars "a_flipped.mp4"] [] [] []) (chars "a.mp4")
      = FlipSplitState.mk [chars "a_flipped.mp4"] [] [] [] :=
  ⟨by decide,
   c10_flip_skip_existing [chars "a.mp4"] [(chars "a.json", ⟨chars "a.mp4", []⟩)]
     (FlipSplitState.mk [chars "a_flipped.mp4"] [] [] []) (chars "a.mp4") (by decide)⟩

/-- Claim C9: the counterpart-class config step of flip_videos.  When the
counterpart class already exists, the config is returned unchanged and is
not written, and split processing proceeds on that config.  When it is
absent it is created exactly once, before any split processing, with the
source class's tag list when the caller supplied a nonempty copy-tags
list for at least one split, and with the empty tag list when both
copy-tags lists are empty; in both creation cases the config is written
exactly once. -/
theorem c9_flip_counterpart_creation :
    (∀ (cfg : Config) (orig counter : String) (inp : FlipInput)
        (st0T st0V : FlipSplitState) (L : List Nat),
      alistLookup cfg.classes counter = some L →
      flip_videos cfg orig counter inp st0T st0V
        = .ok ⟨cfg, false,
            processSplit inp.ctTrain inp.tagsTrain inp.inTrain st0T,
            processSplit inp.ctValid inp.tagsValid inp.inValid st0V⟩)
    ∧ (∀ (cfg : Config) (orig counter : String) (inp : FlipInput)
        (st0T st0V : FlipSplitState),
      alistLookup cfg.classes counter = none →
      inp.ctTrain = [] → inp.ctValid = [] →
      flip_videos cfg orig counter inp st0T st0V
        = .ok ⟨{ cfg with classes := alistSet cfg.classes counter [] }, true,
            processSplit inp.ctTrain inp.tagsTrain inp.inTrain st0T,
            processSplit inp.ctValid inp.tagsValid inp.inValid st0V⟩
        ∧ alistLookup (alistSet cfg.classes counter []) counter = some [])
    ∧ (∀ (cfg : Config) (orig counter : String) (inp : FlipInput)
        (st0T st0V : FlipSplitState) (t : List Nat),
      alistLookup cfg.classes counter = none →
      (inp.ctTrain ≠ [] ∨ inp.ctValid ≠ []) →
      alistLookup cfg.classes orig = some t →
      flip_videos cfg orig counter inp st0T st0V
        = .ok ⟨{ cfg with classes := alistSet cfg.classes counter t }, true,
            processSplit inp.ctTrain inp.tagsTrain inp.inTrain st0T,
            processSplit inp.ctValid inp.tagsValid inp.inValid st0V⟩
        ∧ alistLookup (alistSet cfg.classes counter t) counter = some t) := by
  refine ⟨?_, ?_, ?_⟩
  · intro cfg orig counter inp st0T st0V L h
    simp [flip_videos, h]
  · intro cfg orig counter inp st0T st0V h h1 h2
    refine ⟨?_, alistLookup_set_self _ _ _⟩
    simp [flip_videos, h, h1, h2]
  · intro cfg orig counter inp st0T st0V t h hne ho
    refine ⟨?_, alistLookup_set_self _ _ _⟩
    have hempty : (inp.ctTrain.isEmpty && inp.ctValid.isEmpty) = false := by
      rcases hne with hne | hne
      · simp [List.isEmpty_iff, hne]
      · simp [List.isEmpty_iff, hne]
    simp [flip_videos, h, hempty, ho]

theorem c9_flip_counterpart_creation_witness :
    flip_videos ⟨[("left", [0])], ""⟩ "left" "left_flipped"
        ⟨[chars "a.mp4"], [], [chars "a.mp4"], [], [], []⟩ ⟨[], [], [], []⟩ ⟨[], [], [], []⟩
      = .ok ⟨⟨[("left", [0]), ("left_flipped", [0])], ""⟩, true,
          processSplit [chars "a.mp4"] [] [chars "a.mp4"] ⟨[], [], [], []⟩,
          processSplit [] [] [] ⟨[], [], [], []⟩⟩
    ∧ alistLookup ([("left", [0]), ("left_flipped", [0])] : List (String × List Nat))
        "left_flipped" = some [0] := by
  have h := c9_flip_counterpart_creation.2.2 ⟨[("left", [0])], ""⟩ "left" "left_flipped"
    ⟨[chars "a.mp4"], [], [chars "a.mp4"], [], [], []⟩ ⟨[], [], [], []⟩ ⟨[], [], [], []⟩
    [0] rfl (Or.inl (by decide)) rfl
  exact ⟨h.1, h.2⟩

theorem stripUnder_append (b s : FsPath) : stripUnder b (b ++ s) = some s := by
  induction b with
  | nil => rfl
  | cons c cs ih => simp [stripUnder, ih]

theorem stripUnder_eq_none_of_isUnder_false (b p : FsPath) (h : isUnder b p = false) :
    stripUnder b p = none := by
  induction b generalizing p with
  | nil => simp [isUnder] at h
  | cons c cs ih =>
    cases p with
    | nil => rfl
    | cons c1 p1 =>
      simp only [isUnder, Bool.and_eq_false_iff] at h
      rcases h with h | h
      · simp [stripUnder, h]
      · by_cases hc : (c == c1) = true
        · simp [stripUnder, hc, ih p1 h]
        · simp [stripUnder, hc]

theorem isUnder_append_cancel (r u v : FsPath) : isUnder (r ++ u) (r ++ v) = isUnder u v := by
  induction r with
  | nil => rfl
  | cons c cs ih => simp [isUnder, ih]

theorem fsHas_iff_mem (fs : FS) (p : FsPath) : fsHas fs p = true ↔ p ∈ fs.dirs :=
  List.elem_iff

theorem mem_fsRename_of_not_under (fs : FS) (o n p : FsPath)
    (hp : p ∈ fs.dirs) (h : isUnder o p = false) : p ∈ (fsRename fs o n).dirs :=
  List.mem_map.mpr ⟨p, hp, by rw [stripUnder_eq_none_of_isUnder_false o p h]⟩

theorem mem_fsRename_image (fs : FS) (o n s : FsPath) (h : (o ++ s) ∈ fs.dirs) :
    (n ++ s) ∈ (fsRename fs o n).dirs :=
  List.mem_map.mpr ⟨o ++ s, h, by rw [stripUnder_append o s]⟩

theorem renameStep_keep (old_name new_name : String) (acc : FS) (b : FsPath) (p : FsPath)
    (hp : p ∈ acc.dirs) (h : isUnder (b ++ [old_name]) p = false) :
    p ∈ (renameStep old_name new_name acc b).dirs := by
  rw [renameStep]
  by_cases hex : fsHas acc (b ++ [old_name]) = true
  · rw [if_pos hex]
    exact mem_fsRename_of_not_under acc _ _ p hp h
  · rw [if_neg hex]
    exact hp

theorem foldKeep (old_name new_name : String) (bs : List FsPath) (acc : FS) (p : FsPath)
    (hp : p ∈ acc.dirs) (h : ∀ b ∈ bs, isUnder (b ++ [old_name]) p = false) :
    p ∈ (bs.foldl (renameStep old_name new_name) acc).dirs := by
  induction bs generalizing acc with
  | nil => exact hp
  | cons b0 r ih =>
    rw [List.foldl_cons]
    exact ih (renameStep old_name new_name acc b0)
      (renameStep_keep old_name new_name acc b0 p hp (h b0 (List.mem_cons_self b0 r)))
      (fun b hb => h b (List.mem_cons_of_mem b0 hb))

theorem foldSkip (old_name new_name : String) (bs : List FsPath) (fs : FS)
    (h : ∀ b ∈ bs, fsHas fs (b ++ [old_name]) = false) :
    bs.foldl (renameStep old_name new_name) fs = fs := by
  induction bs with
  | nil => rfl
  | cons b0 r ih =>
    rw [List.foldl_cons]
    have hstep : renameStep old_name new_name fs b0 = fs := by
      rw [renameStep, if_neg]
      simp [h b0 (List.mem_cons_self b0 r)]
    rw [hstep]
    exact ih (fun b hb => h b (List.mem_cons_of_mem b0 hb))

theorem foldRen (old_name new_name : String) (bs : List FsPath) (acc : FS)
    (b : FsPath) (s : FsPath) (hb : b ∈ bs)
    (h1 : (b ++ [old_name]) ∈ acc.dirs) (h2 : (b ++ [old_name] ++ s) ∈ acc.dirs)
    (H1 : ∀ b1 ∈ bs, isUnder (b1 ++ [old_name]) (b ++ [new_name] ++ s) = false)
    (H2 : ∀ b1 ∈ bs, b1 ≠ b →
      isUnder (b1 ++ [old_name]) (b ++ [old_name] ++ s) = false
      ∧ isUnder (b1 ++ [old_name]) (b ++ [old_name]) = false) :
    (b ++ [new_name] ++ s) ∈ (bs.foldl (renameStep old_name new_name) acc).dirs := by
  induction bs generalizing acc with
  | nil => exact absurd hb (List.not_mem_nil b)
  | cons b0 r ih =>
    rw [List.foldl_cons]
    by_cases hb0 : b0 = b
    · subst hb0
      have hstep : renameStep old_name new_name acc b0
          = fsRename acc (b0 ++ [old_name]) (b0 ++ [new_name]) := by
        rw [renameStep, if_pos ((fsHas_iff_mem acc _).mpr h1)]
      rw [hstep]
      have himg : (b0 ++ [new_name] ++ s)
          ∈ (fsRename acc (b0 ++ [old_name]) (b0 ++ [new_name])).dirs :=
        mem_fsRename_image acc (b0 ++ [old_name]) (b0 ++ [new_name]) s h2
      exact foldKeep old_name new_name r _ _ himg
        (fun b1 hb1 => H1 b1 (List.mem_cons_of_mem b0 hb1))
    · have hbr : b ∈ r := by
        rcases List.mem_cons.mp hb with h | h
        · exact absurd h.symm hb0
        · exact h
      have hpair := H2 b0 (List.mem_cons_self b0 r) hb0
      have h1' : (b ++ [old_name]) ∈ (renameStep old_name new_name acc b0).dirs := by
        apply renameStep_keep old_name new_name acc b0 _ h1
        have := hpair.2
        simpa using this
      have h2' : (b ++ [old_name] ++ s) ∈ (renameStep old_name new_name acc b0).dirs :=
        renameStep_keep old_name new_name acc b0 _ h2 hpair.1
      exact ih _ hbr h1' h2'
        (fun b1 hb1 => H1 b1 (List.mem_cons_of_mem b0 hb1))
        (fun b1 hb1 hne1 => H2 b1 (List.mem_cons_of_mem b0 hb1) hne1)

/-- The six per-split static base directory names enumerated by edit_class. -/
def staticKinds : List String :=
  ["videos_train", "frames_train", "tags_train", "videos_valid", "frames_valid", "tags_valid"]

theorem mem_dataDirs_shape (fs : FS) (root : FsPath) (b : FsPath) (hb : b ∈ dataDirs fs root) :
    (∃ k, k ∈ staticKinds ∧ b = root ++ [k])
    ∨ (∃ sp, sp ∈ SPLITS ∧ ∃ m d, b = root ++ ["features_" ++ sp, m, d]) := by
  rw [dataDirs] at hb
  simp only [List.mem_flatMap] at hb
  obtain ⟨sp, hsp, hmem⟩ := hb
  have hsp2 : sp = "train" ∨ sp = "valid" := by simpa [SPLITS] using hsp
  rcases List.mem_append.mp hmem with hmem | hmem
  · left
    simp only [List.mem_cons, List.not_mem_nil, or_false] at hmem
    rcases hmem with h | h | h
    · refine ⟨"videos_" ++ sp, ?_, h⟩
      rcases hsp2 with h2 | h2 <;> (subst h2; decide)
    · refine ⟨"frames_" ++ sp, ?_, h⟩
      rcases hsp2 with h2 | h2 <;> (subst h2; decide)
    · refine ⟨"tags_" ++ sp, ?_, h⟩
      rcases hsp2 with h2 | h2 <;> (subst h2; decide)
  · rw [featureDirs] at hmem
    by_cases hex : fsHas fs (get_features_dir root sp) = true
    · rw [if_pos hex] at hmem
      simp only [List.mem_flatMap, List.mem_map] at hmem
      obtain ⟨m, hm, d, hd, heq⟩ := hmem
      right
      refine ⟨sp, hsp, m, d, ?_⟩
      rw [← heq, get_features_dir, List.append_assoc]
      rfl
    · rw [if_neg hex] at hmem
      exact absurd hmem (List.not_mem_nil b)

theorem static_ne_feature (k sp : String) (hk : k ∈ staticKinds) (hsp : sp ∈ SPLITS) :
    k ≠ "features_" ++ sp := by
  fin_cases hk <;> fin_cases hsp <;> decide

/-- Any two distinct class directories under the enumerated bases are
prefix-incomparable, and so are the old and new class directories under the
same base: the videos/frames/tags bases sit one level below the root with
six pairwise distinct names, the feature bases three levels below it under
a features_ name, and no base's class directory can lie inside another's. -/
theorem dataDirs_sep (fs : FS) (root : FsPath) (x y : String) (b b1 : FsPath)
    (hb : b ∈ dataDirs fs root) (hb1 : b1 ∈ dataDirs fs root)
    (hne : b ≠ b1 ∨ x ≠ y) (s : FsPath) :
    isUnder (b ++ [x]) (b1 ++ [y] ++ s) = false := by
  rcases mem_dataDirs_shape fs root b hb with ⟨k, hk, hbk⟩ | ⟨sp, hsp, m, d, hbf⟩ <;>
    rcases mem_dataDirs_shape fs root b1 hb1 with ⟨k1, hk1, hbk1⟩ | ⟨sp1, hsp1, m1, d1, hbf1⟩
  · subst hbk; subst hbk1
    simp only [List.append_assoc]
    rw [isUnder_append_cancel]
    show isUnder [k, x] (k1 :: y :: s) = false
    by_cases hk2 : k = k1
    · subst hk2
      have hxy : x ≠ y := by
        rcases hne with h | h
        · exact absurd rfl h
        · exact h
      have hb2 : (x == y) = false := by simp [hxy]
      simp [isUnder, hb2]
    · have hb2 : (k == k1) = false := by simp [hk2]
      simp [isUnder, hb2]
  · subst hbk; subst hbf1
    simp only [List.append_assoc]
    rw [isUnder_append_cancel]
    show isUnder [k, x] (("features_" ++ sp1) :: m1 :: d1 :: y :: s) = false
    have hb2 : (k == "features_" ++ sp1) = false := by
      simp [static_ne_feature k sp1 hk hsp1]
    simp [isUnder, hb2]
  · subst hbf; subst hbk1
    simp only [List.append_assoc]
    rw [isUnder_append_cancel]
    show isUnder [("features_" ++ sp), m, d, x] (k1 :: y :: s) = false
    have hb2 : (("features_" ++ sp) == k1) = false := by
      simp [Ne.symm (static_ne_feature k1 sp hk1 hsp)]
    simp [isUnder, hb2]
  · subst hbf; subst hbf1
    simp only [List.append_assoc]
    rw [isUnder_append_cancel]
    show isUnder [("features_" ++ sp), m, d, x]
      (("features_" ++ sp1) :: m1 :: d1 :: y :: s) = false
    by_cases hf : ("features_" ++ sp) = ("features_" ++ sp1)
    · by_cases hm2 : m = m1
      · by_cases hd2 : d = d1
        · have hbb : root ++ ["features_" ++ sp, m, d] = root ++ ["features_" ++ sp1, m1, d1] := by
            rw [hf, hm2, hd2]
          have hxy : x ≠ y := by
            rcases hne with h | h
            · exact absurd hbb h
            · exact h
          have hb2 : (x == y) = false := by simp [hxy]
          simp [isUnder, hb2]
        · have hb2 : (d == d1) = false := by simp [hd2]
          simp [isUnder, hb2]
      · have hb2 : (m == m1) = false := by simp [hm2]
        simp [isUnder, hb2]
    · have hb2 : (("features_" ++ sp) == ("features_" ++ sp1)) = false := by simp [hf]
      simp [isUnder, hb2]

/-- Claim C7: the directory-rename phase of edit_class.  The bases it works
on are exactly the dataDirs enumeration - per split the videos, frames and
tags bases plus every (model, tune-depth) pair discovered by listing the
existing features directory at call time.  (1) When no enumerated base has
an old-name subdirectory the layout is returned untouched (every absent
base or nested combination is silently skipped).  (2) Any existing
directory not lying under an enumerated base's old-name subdirectory is
preserved.  (3) Under every enumerated base whose old-name subdirectory
exists, that subdirectory and everything below it is renamed to the
new name. -/
theorem c7_rename_class_dirs (fs : FS) (root : FsPath) (old_name new_name : String)
    (hne : old_name ≠ new_name) :
    ((∀ b ∈ dataDirs fs root, fsHas fs (b ++ [old_name]) = false) →
        renameClassDirs fs root old_name new_name = fs)
    ∧ (∀ p ∈ fs.dirs, (∀ b ∈ dataDirs fs root, isUnder (b ++ [old_name]) p = false) →
        p ∈ (renameClassDirs fs root old_name new_name).dirs)
    ∧ (∀ b ∈ dataDirs fs root, ∀ s : FsPath, (b ++ [old_name]) ∈ fs.dirs →
        (b ++ [old_name] ++ s) ∈ fs.dirs →
        (b ++ [new_name] ++ s) ∈ (renameClassDirs fs root old_name new_name).dirs) := by
  refine ⟨?_, ?_, ?_⟩
  · intro h
    exact foldSkip _ _ _ _ h
  · intro p hp h
    exact foldKeep _ _ _ _ _ hp h
  · intro b hb s h1 h2
    apply foldRen old_name new_name (dataDirs fs root) fs b s hb h1 h2
    · intro b1 hb1
      exact dataDirs_sep fs root old_name new_name b1 b hb1 hb (Or.inr hne) s
    · intro b1 hb1 hne1
      constructor
      · exact dataDirs_sep fs root old_name old_name b1 b hb1 hb (Or.inl hne1) s
      · have h0 := dataDirs_sep fs root old_name old_name b1 b hb1 hb (Or.inl hne1) []
        rwa [List.append_nil] at h0

theorem c7_rename_class_dirs_witness :
    ("a" : String) ≠ "b"
    ∧ (((∀ b ∈ dataDirs (FS.mk [["p", "videos_train"], ["p", "videos_train", "a"]]) ["p"],
          fsHas (FS.mk [["p", "videos_train"], ["p", "videos_train", "a"]]) (b ++ ["a"]) = false) →
        renameClassDirs (FS.mk [["p", "videos_train"], ["p", "videos_train", "a"]]) ["p"] "a" "b"
          = FS.mk [["p", "videos_train"], ["p", "videos_train", "a"]])
      ∧ (∀ p ∈ (FS.mk [["p", "videos_train"], ["p", "videos_train", "a"]]).dirs,
          (∀ b ∈ dataDirs (FS.mk [["p", "videos_train"], ["p", "videos_train", "a"]]) ["p"],
            isUnder (b ++ ["a"]) p = false) →
          p ∈ (renameClassDirs (FS.mk [["p", "videos_train"], ["p", "videos_train", "a"]])
            ["p"] "a" "b").dirs)
      ∧ (∀ b ∈ dataDirs (FS.mk [["p", "videos_train"], ["p", "videos_train", "a"]]) ["p"],
          ∀ s : FsPath,
          (b ++ ["a"]) ∈ (FS.mk [["p", "videos_train"], ["p", "videos_train", "a"]]).dirs →
          (b ++ ["a"] ++ s) ∈ (FS.mk [["p", "videos_train"], ["p", "videos_train", "a"]]).dirs →
          (b ++ ["b"] ++ s) ∈ (renameClassDirs
            (FS.mk [["p", "videos_train"], ["p", "videos_train", "a"]]) ["p"] "a" "b").dirs)) :=
  ⟨by decide, c7_rename_class_dirs (FS.mk [["p", "videos_train"], ["p", "videos_train", "a"]])
    ["p"] "a" "b" (by decide)⟩
